import Mathlib

/-!
Shallow embedding of `ptunifier/models/objectives.py`: the label/target
construction and loss formulas of the training objectives, together with the
core ranking computation of the retrieval recall evaluator.  Tensors are
modelled as functions `ℕ → ℚ` (or lists), machine floats as `ℚ`, and the
abstract neural collaborators (encoder, heads, log-softmax) as opaque rational
valued parameters.
-/

namespace PTUnifier

/-! ### Image-text matching (`compute_itm`, lines 142-164) -/

/-- `pos_len = len(batch["text"]) // 2` (line 143). -/
def itmPosLen (n : ℕ) : ℕ := n / 2

/-- `neg_len = len(batch["text"]) - pos_len` (line 144). -/
def itmNegLen (n : ℕ) : ℕ := n - itmPosLen n

/-- `torch.cat([torch.ones(pos_len), torch.zeros(neg_len)])` (line 145):
the unshuffled ITM label vector, ones first. -/
def itmBaseLabels (n : ℕ) : List ℕ :=
  List.replicate (itmPosLen n) 1 ++ List.replicate (itmNegLen n) 0

/-- The per-view image selection of lines 148-156: for each view pair
`(bti, bfi)` in `zip(batch["image"], batch["false_image_0"])`, stack
`ti if itm_labels[i] == 1 else fi` over `i, (ti, fi)` in `enumerate(zip(bti, bfi))`. -/
def itmImages (labels : List ℕ) (trueViews falseViews : List (List α)) :
    List (List α) :=
  (trueViews.zip falseViews).map (fun bv =>
    (bv.1.zip bv.2).enum.map (fun p => if labels.getD p.1 0 = 1 then p.2.1 else p.2.2))

/-- Lines 158-159 as an operation on a store of Python dict objects:
`batch = {k: v for k, v in batch.items()}` allocates a fresh address `dst`
holding a shallow copy of the dict at `src`, then `batch["image"] = itm_images`
updates only the dict at `dst`. -/
def itmCopyAndSetImage (store : ℕ → String → Option V) (src dst : ℕ)
    (images : V) : ℕ → String → Option V :=
  fun a => if a = dst then (fun k => if k = "image" then some images else store src k)
           else store a

/-! ### Masked image modeling (`compute_mim` lines 85-87, `compute_umim` lines
123-125) -/

/-- `((mim_logits - mim_labels) ** 2).mean(dim=-1)` at patch `p`: the squared
error averaged over the feature axis of size `D`.  `labelsT` is the (possibly
pixel-normalized) target tensor of lines 77-82. -/
def mimPerPatchLoss (logits labelsT : ℕ → ℕ → ℚ) (D p : ℕ) : ℚ :=
  (∑ j in Finset.range D, (logits p j - labelsT p j) ^ 2) / D

/-- Lines 85-87: `mim_loss = (mim_loss * mask).sum() / mask.sum()` over the `P`
patches (batch and patch axes flattened). -/
def compute_mim_loss (logits labelsT : ℕ → ℕ → ℚ) (mask : ℕ → ℚ) (P D : ℕ) : ℚ :=
  (∑ p in Finset.range P, mimPerPatchLoss logits labelsT D p * mask p) /
    (∑ p in Finset.range P, mask p)

/-- Lines 123-125 of `compute_umim`: textually the same loss as `compute_mim`. -/
def compute_umim_loss (logits labelsT : ℕ → ℕ → ℚ) (mask : ℕ → ℚ) (P D : ℕ) : ℚ :=
  (∑ p in Finset.range P, mimPerPatchLoss logits labelsT D p * mask p) /
    (∑ p in Finset.range P, mask p)

/-- Modelled from the spec's words for the refinement comparison: mean squared
error restricted exactly to the masked (`mask = 1`, i.e. removed) patches. -/
def maskedPatchMSE (logits labelsT : ℕ → ℕ → ℚ) (mask : ℕ → ℚ) (P D : ℕ) : ℚ :=
  (∑ p in (Finset.range P).filter (fun p => mask p = 1),
      mimPerPatchLoss logits labelsT D p) /
    ((Finset.range P).filter (fun p => mask p = 1)).card

/-! ### Image-text contrastive (`compute_itc`, lines 181-191) -/

/-- `F.cross_entropy(logits, labels)` with mean reduction, abstracted over the
per-row negative log-softmax `nlp` of the head's logits: the mean over the
batch of `nlp i labels[i]`. -/
def crossEntropyMean (nlp : ℕ → ℕ → ℚ) (labels : List ℕ) : ℚ :=
  (∑ i in Finset.range labels.length, nlp i (labels.getD i 0)) / labels.length

/-- `itc_labels = torch.arange(itc_logits_image.size(0), device=device)`
(line 188). -/
def itcLabels (n : ℕ) : List ℕ := List.range n

/-- Lines 189-191: `itc_loss = (itc_loss_image + itc_loss_text) / 2` with both
directional cross-entropies taken against `itc_labels`. -/
def compute_itc_loss (nlpImage nlpText : ℕ → ℕ → ℚ) (n : ℕ) : ℚ :=
  (crossEntropyMean nlpImage (itcLabels n) + crossEntropyMean nlpText (itcLabels n)) / 2

/-! ### VQA targets (`compute_vqa`, lines 209-222) -/

/-- The inner scatter loop of lines 218-220 for one example: starting from a
zero row, `vqa_targets[i, l] = s` for each `(l, s)` in `zip(_label, _score)`. -/
def vqaTargetsRow (pairs : List (ℕ × ℚ)) : ℕ → ℚ :=
  pairs.foldl (fun acc ls => Function.update acc ls.1 ls.2) (fun _ => 0)

/-- The dense target matrix of lines 212-220: row `i` is built from
`zip(vqa_labels[i], vqa_scores[i])`. -/
def vqaTargets (labels : List (List ℕ)) (scores : List (List ℚ)) : ℕ → ℕ → ℚ :=
  fun i => vqaTargetsRow ((labels.getD i []).zip (scores.getD i []))

/-! ### Conditional language modeling (`compute_clm`, lines 333-338 and 367-369)

`clm_logits = outputs.logits[:, :-1, :]` and `clm_labels = input_ids[:, 1:]`
are flattened by `.view(-1, V)` / `.view(-1)` before
`F.cross_entropy(..., ignore_index=pad_token_id)`.  `nlp t j c` abstracts the
negative log-softmax of the decoder logits of sequence `t` at position `j` for
class `c`; `ids t j` is `input_ids[t, j]`. -/

/-- Lines 333-338 after flattening: flat row `r` pairs logits position
`r % (L-1)` of sequence `r / (L-1)` with label `ids (r / (L-1)) (r % (L-1) + 1)`,
and the mean skips rows whose label is the padding id. -/
def compute_clm_loss (nlp : ℕ → ℕ → ℕ → ℚ) (ids : ℕ → ℕ → ℕ) (B L pad : ℕ) : ℚ :=
  (∑ r in (Finset.range (B * (L - 1))).filter
      (fun r => ids (r / (L - 1)) (r % (L - 1) + 1) ≠ pad),
      nlp (r / (L - 1)) (r % (L - 1)) (ids (r / (L - 1)) (r % (L - 1) + 1))) /
    (((Finset.range (B * (L - 1))).filter
      (fun r => ids (r / (L - 1)) (r % (L - 1) + 1) ≠ pad)).card : ℚ)

/-- Modelled from the spec's words for the refinement comparison: cross-entropy
over pairs `(t, j)` with `j` in `0..L-2`, using label `ids t (j+1)` and
excluding pairs whose label equals the padding id. -/
def clmShiftLoss (nlp : ℕ → ℕ → ℕ → ℚ) (ids : ℕ → ℕ → ℕ) (B L pad : ℕ) : ℚ :=
  (∑ p in (Finset.range B ×ˢ Finset.range (L - 1)).filter
      (fun p => ids p.1 (p.2 + 1) ≠ pad),
      nlp p.1 p.2 (ids p.1 (p.2 + 1))) /
    (((Finset.range B ×ˢ Finset.range (L - 1)).filter
      (fun p => ids p.1 (p.2 + 1) ≠ pad)).card : ℚ)

/-- `"there is no evidence of pulmonary."`, the fixed fallback phrase of
line 369. -/
def clmFallbackText : String := "there is no evidence of pulmonary."

/-- Line 369: `[text if len(text) > 0 else "..." for text in gen_texts]`. -/
def clmPostprocessGenTexts (texts : List String) : List String :=
  texts.map (fun t => if t.length > 0 then t else clmFallbackText)

/-! ### Image-text retrieval training loss (`compute_irtr`, lines 389-414) -/

/-- Lines 393-399 for one text field: `torch.stack` of the `K` false rows along
a new candidate axis, preceded (`torch.cat`, true row `unsqueeze(1)` first) by
the true row.  Row `e`'s candidate list. -/
def irtrCandidates (trueRow : ℕ → τ) (falseRows : ℕ → ℕ → τ) (K e : ℕ) : List τ :=
  trueRow e :: (List.range K).map (fun k => falseRows k e)

/-- Line 400: `batch["image"][0].unsqueeze(1).expand(_bs, false_len + 1, ...)`:
candidate slot `j` of example `e` holds the anchor image of `e`. -/
def irtrImages (img : ℕ → ι) (e j : ℕ) : ι := img e

/-- Line 413: `answer = torch.zeros(_bs).to(score).long()`: the cross-entropy
target of every anchor example. -/
def irtrAnswer (e : ℕ) : ℕ := 0

/-! ### Retrieval recall (`compute_irtr_recall`, lines 506-533)

After the distributed gather, `scores` is the dense `[nI, nT]` matrix (rows:
images, columns: texts), `iids r` the image id of row `r`, and `tiids t` the
source-image index of text `t`. -/

/-- `scores.topk(k, dim)` along one slice of length `n`: the indices sorted by
decreasing score (ties broken by increasing index, a deterministic tie rule),
truncated to the first `k`. -/
def topkIdx {α : Type} [LinearOrder α] (score : ℕ → α) (n k : ℕ) : List ℕ :=
  (List.insertionSort (fun i j => score j < score i ∨ (score i = score j ∧ i ≤ j))
    (List.range n)).take k

/-- `(x == topk_iids).float().max(dim)[0]` for one query: the maximum of the
0/1 match indicators over the top-k index list `l`. -/
def matchIndicatorMax (l : List ℕ) (target : ℤ) (ids : ℕ → ℤ) : ℚ :=
  (l.map (fun t => if ids t = target then (1 : ℚ) else 0)).foldr max 0

/-- Lines 511-520: text-retrieval recall@k (`tr_rk`) — for each image row `r`,
the top-k texts along `dim=1`, matched against `iids r`, then `.mean()`. -/
def irtrRecallTR {α : Type} [LinearOrder α] (score : ℕ → ℕ → α)
    (iids tiids : ℕ → ℤ) (nI nT k : ℕ) : ℚ :=
  (∑ r in Finset.range nI,
      matchIndicatorMax (topkIdx (fun t => score r t) nT k) (iids r) tiids) / nI

/-- Lines 522-531: image-retrieval recall@k (`ir_rk`) — for each text column
`t`, the top-k images along `dim=0`, matched against `tiids t`, then `.mean()`. -/
def irtrRecallIR {α : Type} [LinearOrder α] (score : ℕ → ℕ → α)
    (iids tiids : ℕ → ℤ) (nI nT k : ℕ) : ℚ :=
  (∑ t in Finset.range nT,
      matchIndicatorMax (topkIdx (fun r => score r t) nI k) (tiids t) iids) / nT

/-- Line 533: the returned sextuple
`(ir_r1, ir_r5, ir_r10, tr_r1, tr_r5, tr_r10)`. -/
def compute_irtr_recall_result {α : Type} [LinearOrder α] (score : ℕ → ℕ → α)
    (iids tiids : ℕ → ℤ) (nI nT : ℕ) : ℚ × ℚ × ℚ × ℚ × ℚ × ℚ :=
  (irtrRecallIR score iids tiids nI nT 1, irtrRecallIR score iids tiids nI nT 5,
   irtrRecallIR score iids tiids nI nT 10, irtrRecallTR score iids tiids nI nT 1,
   irtrRecallTR score iids tiids nI nT 5, irtrRecallTR score iids tiids nI nT 10)

/-- Modelled from the spec's words for the refinement comparison: the fraction
of image rows whose top-k texts include a text whose stored source-image index
equals that image's id. -/
def recallFracRow {α : Type} [LinearOrder α] (score : ℕ → ℕ → α)
    (iids tiids : ℕ → ℤ) (nI nT k : ℕ) : ℚ :=
  (∑ r in Finset.range nI,
      if ∃ t ∈ topkIdx (fun t => score r t) nT k, tiids t = iids r
      then (1 : ℚ) else 0) / nI

/-- Modelled from the spec's words for the refinement comparison: the fraction
of text columns whose top-k images include an image whose id equals the text's
stored source-image index. -/
def recallFracCol {α : Type} [LinearOrder α] (score : ℕ → ℕ → α)
    (iids tiids : ℕ → ℤ) (nI nT k : ℕ) : ℚ :=
  (∑ t in Finset.range nT,
      if ∃ r ∈ topkIdx (fun r => score r t) nI k, iids r = tiids t
      then (1 : ℚ) else 0) / nT

end PTUnifier

open PTUnifier

/-- C1 counterexample: at `N = 3` the unshuffled ITM label vector contains
`floor(3/2) = 1` one, not `ceil(3/2) = 2` as the claim states; since the
identity permutation is a permutation, the count after permuting need not be
`ceil(N/2)`. -/
theorem itm_ceil_ones_counterexample :
    (itmBaseLabels 3).count 1 = 1 ∧ (itmBaseLabels 3).count 1 ≠ (3 + 1) / 2 := by
  constructor <;> decide

/-- C1 (amended): the ITM label vector contains exactly `floor(N/2)` ones and
`ceil(N/2)` zeros, and any permutation of it (line 146 applies `randperm` to
the labels) preserves both counts, so for any permutation seed the number of
examples with label 1 equals `floor(N/2)`. -/
theorem itm_ones_floor_perm (n : ℕ) (l : List ℕ) (h : l.Perm (itmBaseLabels n)) :
    l.count 1 = n / 2 ∧ l.count 0 = n - n / 2 := by
  have h1 : ∀ a : ℕ, l.count a = (itmBaseLabels n).count a := fun a => h.count_eq a
  have hbase1 : (itmBaseLabels n).count 1 = n / 2 := by
    simp [itmBaseLabels, itmPosLen, itmNegLen, List.count_append, List.count_replicate]
  have hbase0 : (itmBaseLabels n).count 0 = n - n / 2 := by
    simp [itmBaseLabels, itmPosLen, itmNegLen, List.count_append, List.count_replicate]
  exact ⟨by rw [h1 1, hbase1], by rw [h1 0, hbase0]⟩

/-- C1 witness: the theorem applied at `n = 5` and the identity permutation. -/
theorem itm_ones_floor_perm_witness :
    (itmBaseLabels 5).count 1 = 5 / 2 ∧ (itmBaseLabels 5).count 0 = 5 - 5 / 2 :=
  itm_ones_floor_perm 5 (itmBaseLabels 5) (List.Perm.refl _)

/-- C4: in `compute_itm` the permutation touches only the label vector; for
every view `v` and example `i`, the selected image is the true image from
`batch["image"]` exactly when the permuted label at `i` is 1, and otherwise the
corresponding entry of `batch["false_image_0"]`. -/
theorem itm_image_selection (labels : List ℕ) (T F : List (List α)) (d : α)
    (v i : ℕ) (hv : v < T.length) (hv2 : v < F.length)
    (hi : i < (T.getD v []).length) (hi2 : i < (F.getD v []).length)
    (hlab : i < labels.length) :
    ((itmImages labels T F).getD v []).getD i d =
      if labels.getD i 0 = 1 then (T.getD v []).getD i d
      else (F.getD v []).getD i d := by
  have hTv : T.getD v [] = T[v] := List.getD_eq_getElem T [] hv
  have hFv : F.getD v [] = F[v] := List.getD_eq_getElem F [] hv2
  rw [hTv] at hi ⊢
  rw [hFv] at hi2 ⊢
  have hvz : v < ((T.zip F).map (fun bv =>
      (bv.1.zip bv.2).enum.map (fun p =>
        if labels.getD p.1 0 = 1 then p.2.1 else p.2.2))).length := by
    simp [List.length_zip]; omega
  rw [itmImages, List.getD_eq_getElem _ [] hvz, List.getElem_map]
  have hvz2 : v < (T.zip F).length := by
    simp [List.length_zip]; omega
  have hzv : (T.zip F)[v] = (T[v], F[v]) := List.getElem_zip
  rw [hzv]
  have hie : i < (((T[v]).zip (F[v])).enum.map (fun p =>
      if labels.getD p.1 0 = 1 then p.2.1 else p.2.2)).length := by
    simp [List.length_zip]; omega
  rw [List.getD_eq_getElem _ d hie, List.getElem_map, List.getElem_enum]
  have hziv2 : i < ((T[v]).zip (F[v])).length := by
    simp [List.length_zip]; omega
  have hziv : ((T[v]).zip (F[v]))[i] = ((T[v])[i], (F[v])[i]) := List.getElem_zip
  have hg1 : (T[v]).getD i d = (T[v])[i] := List.getD_eq_getElem _ d hi
  have hg2 : (F[v]).getD i d = (F[v])[i] := List.getD_eq_getElem _ d hi2
  rw [hziv, hg1, hg2]

/-- C4 witness: the theorem applied to a concrete two-example batch with one
view, labels `[1, 0]`. -/
theorem itm_image_selection_witness :
    ((itmImages [1, 0] [[10, 20]] [[30, 40]]).getD 0 []).getD 1 0 =
      if ([1, 0] : List ℕ).getD 1 0 = 1 then (([[10, 20]] : List (List ℕ)).getD 0 []).getD 1 0
      else (([[30, 40]] : List (List ℕ)).getD 0 []).getD 1 0 :=
  itm_image_selection [1, 0] [[10, 20]] [[30, 40]] 0 0 1
    (by decide) (by decide) (by decide) (by decide) (by decide)

/-- C10: `compute_itm` rebinds `batch` to a shallow copy before replacing the
`"image"` entry: after lines 158-159 the caller's dict at `src` is unchanged,
while the fresh dict at `dst` maps `"image"` to the selected ITM images and
every other key to its original value. -/
theorem itm_batch_not_mutated {V : Type} (store : ℕ → String → Option V)
    (src dst : ℕ) (images : V) (h : dst ≠ src) :
    (itmCopyAndSetImage store src dst images) src = store src ∧
    (itmCopyAndSetImage store src dst images) dst "image" = some images ∧
    ∀ k, k ≠ "image" → (itmCopyAndSetImage store src dst images) dst k = store src k := by
  refine ⟨?_, ?_, ?_⟩
  · simp [itmCopyAndSetImage, Ne.symm h]
  · simp [itmCopyAndSetImage]
  · intro k hk
    simp [itmCopyAndSetImage, hk]

/-- C10 witness: the theorem applied to a concrete store with `src = 0`,
`dst = 1`. -/
theorem itm_batch_not_mutated_witness :
    (itmCopyAndSetImage (fun _ _ => (none : Option ℕ)) 0 1 7) 0 =
        (fun _ => (none : Option ℕ)) ∧
    (itmCopyAndSetImage (fun _ _ => (none : Option ℕ)) 0 1 7) 1 "image" = some 7 ∧
    ∀ k, k ≠ "image" →
      (itmCopyAndSetImage (fun _ _ => (none : Option ℕ)) 0 1 7) 1 k = none :=
  itm_batch_not_mutated (fun _ _ => (none : Option ℕ)) 0 1 7 (by decide)

/-- Helper for the VQA scatter semantics: folding dict-style assignments over a
pair list leaves cell `j` holding the score of the last pair targeting `j`, or
the accumulator's original value when no pair targets `j`. -/
theorem vqaTargetsRow_aux (pairs : List (ℕ × ℚ)) (acc : ℕ → ℚ) (j : ℕ) :
    pairs.foldl (fun a p => Function.update a p.1 p.2) acc j =
      ((pairs.reverse.find? (fun p => p.1 = j)).map Prod.snd).getD (acc j) := by
  induction pairs generalizing acc with
  | nil => simp
  | cons p rest ih =>
    rw [List.foldl_cons, ih, List.reverse_cons, List.find?_append]
    cases hfind : rest.reverse.find? (fun p => decide (p.1 = j)) with
    | some q => simp
    | none =>
      by_cases hp : p.1 = j
      · subst hp
        simp [List.find?, Function.update_same]
      · simp [List.find?, hp, Function.update_noteq (Ne.symm hp)]

/-- C2 counterexample: example 0 scatters the pairs `(0, 1/2)` then `(0, 1/4)`
to the same cell; the code leaves `1/4` (the later write) in the cell, not the
sum `1/2 + 1/4` the claim requires. -/
theorem vqa_scatter_overwrite_counterexample :
    vqaTargets [[0, 0]] [[1/2, 1/4]] 0 0 = 1/4 ∧ ((1 : ℚ)/4) ≠ 1/2 + 1/4 := by
  constructor
  · norm_num [vqaTargets, vqaTargetsRow, Function.update]
  · norm_num

/-- C2 (amended): when several `(label, score)` pairs of one example scatter to
the same cell, the later pair overwrites the earlier one: the cell ends up
holding the score of the last pair whose label hits it (0 when none does). -/
theorem vqa_scatter_last_write (labels : List (List ℕ)) (scores : List (List ℚ))
    (i j : ℕ) :
    vqaTargets labels scores i j =
      (((((labels.getD i []).zip (scores.getD i [])).reverse.find?
        (fun p => p.1 = j)).map Prod.snd)).getD 0 :=
  vqaTargetsRow_aux ((labels.getD i []).zip (scores.getD i [])) (fun _ => 0) j

/-- Helper: with a 0/1 mask, the mask-weighted mean of per-patch losses equals
the mean of the per-patch losses over the masked patches alone. -/
theorem masked_mean_eq (logits labelsT : ℕ → ℕ → ℚ) (mask : ℕ → ℚ) (P D : ℕ)
    (hbool : ∀ p, p < P → mask p = 0 ∨ mask p = 1) :
    compute_mim_loss logits labelsT mask P D = maskedPatchMSE logits labelsT mask P D := by
  have hnum : ∑ p in Finset.range P, mimPerPatchLoss logits labelsT D p * mask p
      = ∑ p in (Finset.range P).filter (fun p => mask p = 1),
          mimPerPatchLoss logits labelsT D p := by
    rw [Finset.sum_filter]
    apply Finset.sum_congr rfl
    intro p hp
    rcases hbool p (Finset.mem_range.mp hp) with h0 | h1
    · simp [h0]
    · simp [h1]
  have hden : ∑ p in Finset.range P, mask p
      = (((Finset.range P).filter (fun p => mask p = 1)).card : ℚ) := by
    rw [← Finset.sum_boole]
    apply Finset.sum_congr rfl
    intro p hp
    rcases hbool p (Finset.mem_range.mp hp) with h0 | h1
    · simp [h0]
    · simp [h1]
  rw [compute_mim_loss, maskedPatchMSE, hnum, hden]

/-- C3: with a 0/1 mask (having at least one unmasked patch, as the claim
requires), the MIM and UMIM losses both equal the mean squared error restricted
exactly to the masked patches, and the loss is unchanged by altering the logits
at unmasked patches — unmasked patches contribute nothing. -/
theorem mim_umim_masked_mse (logits labelsT : ℕ → ℕ → ℚ) (mask : ℕ → ℚ) (P D : ℕ)
    (hbool : ∀ p, p < P → mask p = 0 ∨ mask p = 1)
    (hunmasked : ∃ p, p < P ∧ mask p = 0) :
    compute_mim_loss logits labelsT mask P D = maskedPatchMSE logits labelsT mask P D ∧
    compute_umim_loss logits labelsT mask P D = maskedPatchMSE logits labelsT mask P D ∧
    ∀ logits2 : ℕ → ℕ → ℚ,
      (∀ p, p < P → mask p = 1 → ∀ j, logits2 p j = logits p j) →
      compute_mim_loss logits2 labelsT mask P D =
        compute_mim_loss logits labelsT mask P D := by
  refine ⟨masked_mean_eq logits labelsT mask P D hbool,
          masked_mean_eq logits labelsT mask P D hbool, ?_⟩
  intro logits2 hagree
  have hnum : ∑ p in Finset.range P, mimPerPatchLoss logits2 labelsT D p * mask p
      = ∑ p in Finset.range P, mimPerPatchLoss logits labelsT D p * mask p := by
    apply Finset.sum_congr rfl
    intro p hp
    rcases hbool p (Finset.mem_range.mp hp) with h0 | h1
    · simp [h0]
    · have hper : mimPerPatchLoss logits2 labelsT D p = mimPerPatchLoss logits labelsT D p := by
        unfold mimPerPatchLoss
        congr 1
        apply Finset.sum_congr rfl
        intro j _
        rw [hagree p (Finset.mem_range.mp hp) h1 j]
      rw [hper]
  rw [compute_mim_loss, compute_mim_loss, hnum]

/-- C3 witness: the theorem applied to a concrete two-patch input where patch 0
is masked and patch 1 is unmasked. -/
theorem mim_umim_masked_mse_witness :
    compute_mim_loss (fun _ _ => 1) (fun _ _ => 0) (fun p => if p = 0 then 1 else 0) 2 1 =
      maskedPatchMSE (fun _ _ => 1) (fun _ _ => 0) (fun p => if p = 0 then 1 else 0) 2 1 ∧
    compute_umim_loss (fun _ _ => 1) (fun _ _ => 0) (fun p => if p = 0 then 1 else 0) 2 1 =
      maskedPatchMSE (fun _ _ => 1) (fun _ _ => 0) (fun p => if p = 0 then 1 else 0) 2 1 ∧
    ∀ logits2 : ℕ → ℕ → ℚ,
      (∀ p, p < 2 → (if p = 0 then (1 : ℚ) else 0) = 1 → ∀ j, logits2 p j = 1) →
      compute_mim_loss logits2 (fun _ _ => 0) (fun p => if p = 0 then 1 else 0) 2 1 =
        compute_mim_loss (fun _ _ => 1) (fun _ _ => 0) (fun p => if p = 0 then 1 else 0) 2 1 :=
  mim_umim_masked_mse (fun _ _ => 1) (fun _ _ => 0) (fun p => if p = 0 then 1 else 0) 2 1
    (by
      intro p _
      by_cases h : p = 0
      · exact Or.inr (by simp [h])
      · exact Or.inl (by simp [h]))
    ⟨1, by norm_num⟩

/-- C5: for any batch size `n` and any feature-dependent logits (abstracted as
the negative log-softmax functions `nlpImage`, `nlpText`), the ITC ground truth
is exactly the identity index sequence `0..n-1` in both directions, and the
returned loss is the arithmetic mean of the two diagonal cross-entropies. -/
theorem itc_identity_labels_mean_loss (nlpImage nlpText : ℕ → ℕ → ℚ) (n : ℕ) :
    (∀ i, i < n → (itcLabels n).getD i 0 = i) ∧
    compute_itc_loss nlpImage nlpText n =
      ((∑ i in Finset.range n, nlpImage i i) / n +
        (∑ i in Finset.range n, nlpText i i) / n) / 2 := by
  have hget : ∀ i, i < n → (itcLabels n).getD i 0 = i := by
    intro i hi
    have hlen : i < (itcLabels n).length := by simpa [itcLabels] using hi
    rw [List.getD_eq_getElem _ 0 hlen]
    simp [itcLabels]
  refine ⟨hget, ?_⟩
  have hsum : ∀ nlp : ℕ → ℕ → ℚ,
      ∑ i in Finset.range (itcLabels n).length, nlp i ((itcLabels n).getD i 0)
        = ∑ i in Finset.range n, nlp i i := by
    intro nlp
    rw [show (itcLabels n).length = n by simp [itcLabels]]
    exact Finset.sum_congr rfl (fun i hi => by rw [hget i (Finset.mem_range.mp hi)])
  unfold compute_itc_loss crossEntropyMean
  rw [hsum nlpImage, hsum nlpText]
  rw [show (itcLabels n).length = n by simp [itcLabels]]

/-- C5 witness: the theorem applied at batch size 3 with concrete logit
functions. -/
theorem itc_identity_labels_mean_loss_witness :
    (∀ i, i < 3 → (itcLabels 3).getD i 0 = i) ∧
    compute_itc_loss (fun i j => (i : ℚ) * 10 + j) (fun i j => (i : ℚ) - j) 3 =
      ((∑ i in Finset.range 3, ((i : ℚ) * 10 + i)) / 3 +
        (∑ i in Finset.range 3, ((i : ℚ) - i)) / 3) / 2 :=
  itc_identity_labels_mean_loss (fun i j => (i : ℚ) * 10 + j) (fun i j => (i : ℚ) - j) 3

/-- Helper: reindexing a sum over `0..B*S-1` through `r ↦ (r / S, r % S)`. -/
theorem sum_range_mul_divmod {M : Type} [AddCommMonoid M] (B S : ℕ) (f : ℕ → ℕ → M) :
    ∑ r in Finset.range (B * S), f (r / S) (r % S)
      = ∑ p in Finset.range B ×ˢ Finset.range S, f p.1 p.2 := by
  apply Finset.sum_nbij' (fun r => (r / S, r % S)) (fun p => p.1 * S + p.2)
  · intro r hr
    have hr' := Finset.mem_range.mp hr
    have hS : 0 < S := by
      rcases Nat.eq_zero_or_pos S with h | h
      · subst h; omega
      · exact h
    refine Finset.mem_product.mpr
      ⟨Finset.mem_range.mpr ?_, Finset.mem_range.mpr (Nat.mod_lt _ hS)⟩
    exact Nat.div_lt_of_lt_mul (by rwa [mul_comm] at hr')
  · intro p hp
    rcases Finset.mem_product.mp hp with ⟨h1, h2⟩
    have h1' := Finset.mem_range.mp h1
    have h2' := Finset.mem_range.mp h2
    refine Finset.mem_range.mpr ?_
    calc p.1 * S + p.2 < p.1 * S + S := by omega
      _ = (p.1 + 1) * S := by ring
      _ ≤ B * S := Nat.mul_le_mul_right S (by omega)
  · intro r _
    show r / S * S + r % S = r
    rw [mul_comm]
    exact Nat.div_add_mod r S
  · intro p hp
    rcases Finset.mem_product.mp hp with ⟨h1, h2⟩
    have h2' := Finset.mem_range.mp h2
    have hS : 0 < S := by omega
    have hdiv : (p.1 * S + p.2) / S = p.1 := by
      rw [mul_comm, Nat.mul_add_div hS, Nat.div_eq_of_lt h2']
      omega
    have hmod : (p.1 * S + p.2) % S = p.2 := by
      rw [mul_comm, Nat.mul_add_mod, Nat.mod_eq_of_lt h2']
    show ((p.1 * S + p.2) / S, (p.1 * S + p.2) % S) = p
    rw [hdiv, hmod]
  · intro r _
    rfl

/-- Helper: the flattened CLM cross-entropy coincides with the per-pair shifted
formulation. -/
theorem clm_loss_flat_eq_pairs (nlp : ℕ → ℕ → ℕ → ℚ) (ids : ℕ → ℕ → ℕ)
    (B L pad : ℕ) :
    compute_clm_loss nlp ids B L pad = clmShiftLoss nlp ids B L pad := by
  unfold compute_clm_loss clmShiftLoss
  rw [Finset.sum_filter, Finset.sum_filter, ← Finset.sum_boole, ← Finset.sum_boole]
  rw [sum_range_mul_divmod B (L - 1)
        (fun t j => if ids t (j + 1) ≠ pad then nlp t j (ids t (j + 1)) else 0),
      sum_range_mul_divmod B (L - 1)
        (fun t j => if ids t (j + 1) ≠ pad then (1 : ℚ) else 0)]

/-- C6: the CLM loss pairs the decoder logits at positions `0..L-2` with labels
`ids` at positions `1..L-1`, excluding padding-id labels; moreover changing the
per-position losses anywhere except at non-padding shifted positions (in
particular at every padding-label position) leaves the loss unchanged. -/
theorem clm_shift_and_pad_exclusion (nlp : ℕ → ℕ → ℕ → ℚ) (ids : ℕ → ℕ → ℕ)
    (B L pad : ℕ) :
    compute_clm_loss nlp ids B L pad = clmShiftLoss nlp ids B L pad ∧
    ∀ nlp2 : ℕ → ℕ → ℕ → ℚ,
      (∀ t j, t < B → j < L - 1 → ids t (j + 1) ≠ pad →
        nlp2 t j (ids t (j + 1)) = nlp t j (ids t (j + 1))) →
      compute_clm_loss nlp2 ids B L pad = compute_clm_loss nlp ids B L pad := by
  refine ⟨clm_loss_flat_eq_pairs nlp ids B L pad, ?_⟩
  intro nlp2 hagree
  unfold compute_clm_loss
  congr 1
  apply Finset.sum_congr rfl
  intro r hr
  rcases Finset.mem_filter.mp hr with ⟨hr1, hpad⟩
  have hrlt := Finset.mem_range.mp hr1
  have hS : 0 < L - 1 := by
    rcases Nat.eq_zero_or_pos (L - 1) with h | h
    · rw [h, mul_zero] at hrlt; omega
    · exact h
  have hb1 : r / (L - 1) < B := Nat.div_lt_of_lt_mul (by rwa [mul_comm] at hrlt)
  have hb2 : r % (L - 1) < L - 1 := Nat.mod_lt _ hS
  exact hagree _ _ hb1 hb2 hpad

/-- C6 witness: the theorem applied at `B = 1`, `L = 3`, `pad = 0` with
concrete token ids and losses. -/
theorem clm_shift_and_pad_exclusion_witness :
    compute_clm_loss (fun t j c => (t : ℚ) + j + c) (fun t j => t + j) 1 3 0 =
      clmShiftLoss (fun t j c => (t : ℚ) + j + c) (fun t j => t + j) 1 3 0 ∧
    ∀ nlp2 : ℕ → ℕ → ℕ → ℚ,
      (∀ t j, t < 1 → j < 3 - 1 → t + (j + 1) ≠ 0 →
        nlp2 t j (t + (j + 1)) = (t : ℚ) + j + ((t + (j + 1) : ℕ) : ℚ)) →
      compute_clm_loss nlp2 (fun t j => t + j) 1 3 0 =
        compute_clm_loss (fun t j c => (t : ℚ) + j + c) (fun t j => t + j) 1 3 0 :=
  clm_shift_and_pad_exclusion (fun t j c => (t : ℚ) + j + c) (fun t j => t + j) 1 3 0

/-- C9: every string in the post-processed `gen_texts` list is non-empty (an
empty decoded string is replaced by the fixed fallback phrase), and every
non-empty decoded string passes through unchanged. -/
theorem clm_gen_texts_nonempty (texts : List String) :
    (∀ s ∈ clmPostprocessGenTexts texts, 0 < s.length) ∧
    ∀ i, i < texts.length → 0 < (texts.getD i "").length →
      (clmPostprocessGenTexts texts).getD i "" = texts.getD i "" := by
  constructor
  · intro s hs
    rcases List.mem_map.mp hs with ⟨t, _, rfl⟩
    by_cases h : t.length > 0
    · simpa [h]
    · simp only [if_neg h]
      decide
  · intro i hi hpos
    have hi2 : i < (clmPostprocessGenTexts texts).length := by
      simpa [clmPostprocessGenTexts] using hi
    rw [List.getD_eq_getElem _ "" hi] at hpos ⊢
    rw [List.getD_eq_getElem _ "" hi2]
    simp only [clmPostprocessGenTexts, List.getElem_map]
    rw [if_pos hpos]

/-- C9 witness: the theorem applied to a concrete list holding one non-empty
and one empty decoded string. -/
theorem clm_gen_texts_nonempty_witness :
    (∀ s ∈ clmPostprocessGenTexts ["a", ""], 0 < s.length) ∧
    ∀ i, i < (["a", ""] : List String).length →
      0 < ((["a", ""] : List String).getD i "").length →
      (clmPostprocessGenTexts ["a", ""]).getD i "" =
        (["a", ""] : List String).getD i "" :=
  clm_gen_texts_nonempty ["a", ""]

/-- C7: for every anchor example `e`, the IRTR candidate list has length
`K + 1`, holds the true caption at index 0 followed by the `K` configured
negatives in order, the anchor image is replicated across all candidate slots,
and the cross-entropy target of every anchor is index 0 — the slot holding the
true caption. -/
theorem irtr_candidate_layout {τ ι : Type} (trueRow : ℕ → τ) (falseRows : ℕ → ℕ → τ)
    (img : ℕ → ι) (K e : ℕ) (d : τ) :
    (irtrCandidates trueRow falseRows K e).length = K + 1 ∧
    (irtrCandidates trueRow falseRows K e).getD 0 d = trueRow e ∧
    (∀ k, k < K → (irtrCandidates trueRow falseRows K e).getD (k + 1) d = falseRows k e) ∧
    (∀ j, irtrImages img e j = img e) ∧
    irtrAnswer e = 0 ∧
    (irtrCandidates trueRow falseRows K e).getD (irtrAnswer e) d = trueRow e := by
  refine ⟨by simp [irtrCandidates], rfl, ?_, fun j => rfl, rfl, rfl⟩
  intro k hk
  show ((List.range K).map (fun k => falseRows k e)).getD k d = falseRows k e
  have hlen : k < ((List.range K).map (fun k => falseRows k e)).length := by simpa
  rw [List.getD_eq_getElem _ d hlen, List.getElem_map, List.getElem_range]

/-- C7 witness: the theorem applied at `K = 2` with concrete candidate data. -/
theorem irtr_candidate_layout_witness :
    (irtrCandidates (fun e => e * 100) (fun k e => k * 10 + e) 2 3).length = 2 + 1 ∧
    (irtrCandidates (fun e => e * 100) (fun k e => k * 10 + e) 2 3).getD 0 0 = 3 * 100 ∧
    (∀ k, k < 2 →
      (irtrCandidates (fun e => e * 100) (fun k e => k * 10 + e) 2 3).getD (k + 1) 0
        = k * 10 + 3) ∧
    (∀ j, irtrImages (fun e => e + 7) 3 j = 3 + 7) ∧
    irtrAnswer 3 = 0 ∧
    (irtrCandidates (fun e => e * 100) (fun k e => k * 10 + e) 2 3).getD (irtrAnswer 3) 0
      = 3 * 100 :=
  irtr_candidate_layout (fun e => e * 100) (fun k e => k * 10 + e) (fun e => e + 7) 2 3 0

/-- Helper: the max of 0/1 match indicators over a list equals the indicator of
a match existing in the list. -/
theorem matchIndicatorMax_eq_exists (l : List ℕ) (target : ℤ) (ids : ℕ → ℤ) :
    matchIndicatorMax l target ids = if ∃ t ∈ l, ids t = target then (1 : ℚ) else 0 := by
  induction l with
  | nil => simp [matchIndicatorMax]
  | cons a l ih =>
    unfold matchIndicatorMax at ih ⊢
    rw [List.map_cons, List.foldr_cons, ih]
    by_cases h : ids a = target
    · rw [if_pos h,
          if_pos (show ∃ t ∈ a :: l, ids t = target from ⟨a, List.mem_cons_self a l, h⟩)]
      have hle : (if ∃ t ∈ l, ids t = target then (1 : ℚ) else 0) ≤ 1 := by
        split <;> norm_num
      exact max_eq_left hle
    · rw [if_neg h]
      have hiff : (∃ t ∈ a :: l, ids t = target) ↔ (∃ t ∈ l, ids t = target) := by
        constructor
        · rintro ⟨t, ht, hq⟩
          rcases List.mem_cons.mp ht with rfl | htl
          · exact absurd hq h
          · exact ⟨t, htl, hq⟩
        · rintro ⟨t, ht, hq⟩
          exact ⟨t, List.mem_cons_of_mem a ht, hq⟩
      simp only [hiff]
      have hge : (0 : ℚ) ≤ (if ∃ t ∈ l, ids t = target then (1 : ℚ) else 0) := by
        split <;> norm_num
      exact max_eq_right hge

/-- Helper: the code's text-retrieval recall@k coincides with the top-k
membership fraction over image rows. -/
theorem irtr_tr_eq_frac {α : Type} [LinearOrder α] (score : ℕ → ℕ → α)
    (iids tiids : ℕ → ℤ) (nI nT k : ℕ) :
    irtrRecallTR score iids tiids nI nT k = recallFracRow score iids tiids nI nT k := by
  unfold irtrRecallTR recallFracRow
  congr 1
  apply Finset.sum_congr rfl
  intro r _
  rw [matchIndicatorMax_eq_exists]

/-- Helper: the code's image-retrieval recall@k coincides with the top-k
membership fraction over text columns. -/
theorem irtr_ir_eq_frac {α : Type} [LinearOrder α] (score : ℕ → ℕ → α)
    (iids tiids : ℕ → ℤ) (nI nT k : ℕ) :
    irtrRecallIR score iids tiids nI nT k = recallFracCol score iids tiids nI nT k := by
  unfold irtrRecallIR recallFracCol
  congr 1
  apply Finset.sum_congr rfl
  intro t _
  rw [matchIndicatorMax_eq_exists]

/-- C8: `compute_irtr_recall` returns exactly
`(ir@1, ir@5, ir@10, tr@1, tr@5, tr@10)`, where tr@k is the fraction of image
rows whose top-k texts include a text whose stored source-image index equals
that image's id, and ir@k is computed symmetrically per text column — matching
by source-image index, not array position.  The hypotheses record that
`topk(10)` requires at least 10 rows and columns. -/
theorem irtr_recall_order_and_matching {α : Type} [LinearOrder α]
    (score : ℕ → ℕ → α) (iids tiids : ℕ → ℤ) (nI nT : ℕ)
    (hI : 10 ≤ nI) (hT : 10 ≤ nT) :
    compute_irtr_recall_result score iids tiids nI nT =
      (recallFracCol score iids tiids nI nT 1, recallFracCol score iids tiids nI nT 5,
       recallFracCol score iids tiids nI nT 10, recallFracRow score iids tiids nI nT 1,
       recallFracRow score iids tiids nI nT 5, recallFracRow score iids tiids nI nT 10) := by
  unfold compute_irtr_recall_result
  rw [irtr_ir_eq_frac, irtr_ir_eq_frac, irtr_ir_eq_frac,
      irtr_tr_eq_frac, irtr_tr_eq_frac, irtr_tr_eq_frac]

/-- C8 witness: the theorem applied to a concrete `10 × 10` integer score
matrix with identity id assignments. -/
theorem irtr_recall_order_and_matching_witness :
    compute_irtr_recall_result (fun r t => ((r * t : ℕ) : ℤ))
        (fun n => (n : ℤ)) (fun n => (n : ℤ)) 10 10 =
      (recallFracCol (fun r t => ((r * t : ℕ) : ℤ)) (fun n => (n : ℤ)) (fun n => (n : ℤ)) 10 10 1,
       recallFracCol (fun r t => ((r * t : ℕ) : ℤ)) (fun n => (n : ℤ)) (fun n => (n : ℤ)) 10 10 5,
       recallFracCol (fun r t => ((r * t : ℕ) : ℤ)) (fun n => (n : ℤ)) (fun n => (n : ℤ)) 10 10 10,
       recallFracRow (fun r t => ((r * t : ℕ) : ℤ)) (fun n => (n : ℤ)) (fun n => (n : ℤ)) 10 10 1,
       recallFracRow (fun r t => ((r * t : ℕ) : ℤ)) (fun n => (n : ℤ)) (fun n => (n : ℤ)) 10 10 5,
       recallFracRow (fun r t => ((r * t : ℕ) : ℤ)) (fun n => (n : ℤ)) (fun n => (n : ℤ)) 10 10 10) :=
  irtr_recall_order_and_matching (fun r t => ((r * t : ℕ) : ℤ))
    (fun n => (n : ℤ)) (fun n => (n : ℤ)) 10 10 (by norm_num) (by norm_num)
